import Mathlib

/-!
# Verification of the bdms continuity-aware merge engine

Shallow embedding of the date-range algebra and merge pipeline of the
`bdms` package (`bdms/utils.py`, `bdms/merge.py`, `test/migration_test.py`)
together with proofs and refutations of the specification's claims.

Python `datetime.date` values are modelled by the `Date` structure
(proleptic Gregorian calendar, year/month/day as naturals); `ValidDate`
captures the values `datetime.date` can hold.  Python date comparison is
lexicographic on (year, month, day), which coincides with ordinal
comparison on valid dates.  `timedelta` day arithmetic is modelled by
`succDay` / `addDays`, and `(d2 - d1).days` by `toOrd d2 - toOrd d1` over ℤ.
-/

/-- Gregorian leap-year rule, as implemented by Python's `datetime`. -/
def isLeap (y : Nat) : Prop := (y % 4 = 0 ∧ ¬ y % 100 = 0) ∨ y % 400 = 0

instance (y : Nat) : Decidable (isLeap y) := by unfold isLeap; exact inferInstance

/-- Number of days of month `m` of year `y`; `0` for out-of-range months. -/
def daysInMonth (y m : Nat) : Nat :=
  if m = 2 then (if isLeap y then 29 else 28)
  else if m = 4 ∨ m = 6 ∨ m = 9 ∨ m = 11 then 30
  else if m = 0 ∨ 12 < m then 0
  else 31

/-- A calendar date, mirroring Python's `datetime.date` fields. -/
structure Date where
  year : Nat
  month : Nat
  day : Nat
  deriving DecidableEq, Repr

/-- The dates representable as a Python `datetime.date` (year bound above
is irrelevant to the claims and omitted). -/
def ValidDate (d : Date) : Prop :=
  1 ≤ d.year ∧ 1 ≤ d.month ∧ d.month ≤ 12 ∧ 1 ≤ d.day ∧ d.day ≤ daysInMonth d.year d.month

instance (d : Date) : Decidable (ValidDate d) := by unfold ValidDate; exact inferInstance

/-- Python `date` strict comparison (lexicographic on (year, month, day)). -/
def dateLt (a b : Date) : Prop :=
  a.year < b.year ∨ (a.year = b.year ∧
    (a.month < b.month ∨ (a.month = b.month ∧ a.day < b.day)))

instance (a b : Date) : Decidable (dateLt a b) := by unfold dateLt; exact inferInstance

/-- Python `date` non-strict comparison. -/
def dateLe (a b : Date) : Prop := dateLt a b ∨ a = b

instance (a b : Date) : Decidable (dateLe a b) := by unfold dateLe; exact inferInstance

def daysBeforeYear (y : Nat) : Nat :=
  365 * (y - 1) + (y - 1) / 4 - (y - 1) / 100 + (y - 1) / 400

/-- Days in the months of year `y` strictly before month `m`. -/
def daysBeforeMonth (y : Nat) : Nat → Nat
  | 0 => 0
  | m + 1 => daysBeforeMonth y m + daysInMonth y m

/-- Rata-die style ordinal of a date: day 1-1-1 has ordinal 1.  Mirrors
Python's `date.toordinal`, which underlies date subtraction. -/
def toOrd (d : Date) : Nat :=
  daysBeforeYear d.year + daysBeforeMonth d.year d.month + d.day

/-- The next calendar day (Python `date + timedelta(days=1)`). -/
def succDay (d : Date) : Date :=
  if d.day < daysInMonth d.year d.month then ⟨d.year, d.month, d.day + 1⟩
  else if d.month < 12 then ⟨d.year, d.month + 1, 1⟩
  else ⟨d.year + 1, 1, 1⟩

/-- Python `d + timedelta(days=n)`. -/
def addDays (n : Nat) (d : Date) : Date := succDay^[n] d

/-- Python `d.replace(day=1)`. -/
def floorMonth (d : Date) : Date := ⟨d.year, d.month, 1⟩

/-- Linear index of a calendar month, used to measure monthly iteration. -/
def monthIdx (d : Date) : Nat := 12 * d.year + d.month

/-- First day of the calendar month following the month of `d` (for `d`
the first of a month this is the correct month rollover). -/
def nextMonthFirst (d : Date) : Date :=
  if d.month < 12 then ⟨d.year, d.month + 1, 1⟩ else ⟨d.year + 1, 1, 1⟩

/-! ## Embedding of `bdms/utils.py` date-range functions -/

/-- The `mode` parameter of `check_date_range`; the source asserts it is one
of the strings `"daily"`, `"monthly"`. -/
inductive Granularity
  | monthly
  | daily
  deriving DecidableEq, Repr

/-- Structured rendering of the error strings `check_date_range` returns
(each constructor corresponds to one message template, carrying the dates
interpolated into it). -/
inductive RangeError
  | notFirstOfMonth (d2 d1 : Date)
  | gapTooLarge (d2 d1 : Date)
  | gapTooSmall (d2 d1 : Date)
  | notNextDay (d2 d1 : Date)
  deriving DecidableEq, Repr

/-- The body of `check_date_range`'s loop for one adjacent pair `(d1, d2)`;
`(d2 - d1).days` is `toOrd d2 - toOrd d1` over ℤ. -/
def checkPair (mode : Granularity) (d1 d2 : Date) : Option RangeError :=
  match mode with
  | .monthly =>
    if d2.day ≠ 1 ∨ d1.day ≠ 1 then some (.notFirstOfMonth d2 d1)
    else if (31 : Int) < (toOrd d2 : Int) - (toOrd d1 : Int) then some (.gapTooLarge d2 d1)
    else if (toOrd d2 : Int) - (toOrd d1 : Int) < 28 then some (.gapTooSmall d2 d1)
    else none
  | .daily =>
    if (toOrd d2 : Int) - (toOrd d1 : Int) ≠ 1 then some (.notNextDay d2 d1)
    else none

/-- Embeds `bdms.utils.check_date_range`: scans `zip(dates[:-1], dates[1:])` left to
right and returns the first violation message, else `None`. -/
def check_date_range (dates : List Date) (mode : Granularity) : Option RangeError :=
  match dates with
  | d1 :: d2 :: rest =>
    match checkPair mode d1 d2 with
    | some e => some e
    | none => check_date_range (d2 :: rest) mode
  | _ => none

/-- Loop of `generate_daily_date_range` (`while current < end: append; current += 1 day`),
returning the collected dates and the final cursor.  `fuel` bounds the
iteration count; the wrappers pass enough for the loop to run to completion. -/
def dailyLoop : Nat → Date → Date → List Date × Date
  | 0, c, _ => ([], c)
  | f + 1, c, stop =>
    if dateLt c stop then
      let r := dailyLoop f (succDay c) stop
      (c :: r.1, r.2)
    else ([], c)

/-- Python `current_date + timedelta(days=32)` followed by `.replace(day=1)`:
the month-advance step of `generate_monthly_date_range`. -/
def monthStep (c : Date) : Date := floorMonth (addDays 32 c)

/-- Loop of `generate_monthly_date_range`
(`while current < end.replace(day=1): append; current = (current + 32 days).replace(day=1)`). -/
def monthlyLoop : Nat → Date → Date → List Date × Date
  | 0, c, _ => ([], c)
  | f + 1, c, stop =>
    if dateLt c stop then
      let r := monthlyLoop f (monthStep c) stop
      (c :: r.1, r.2)
    else ([], c)

/-- Embeds `bdms.utils.generate_daily_date_range` on parsed dates.  `none` models
the `ValueError` raised when `start_date > end_date`.  The source's final
`check_date_range` call is made and its result discarded, as in the code. -/
def generate_daily_date_range (start_date end_date : Date)
    (include_end_date : Bool) : Option (List Date) :=
  if dateLt end_date start_date then none
  else
    let r := dailyLoop (toOrd end_date + 1 - toOrd start_date) start_date end_date
    let dates := r.1 ++ (if include_end_date then [r.2] else [])
    let _ := check_date_range dates .daily
    some dates

/-- Embeds `bdms.utils.generate_monthly_date_range` on parsed dates. -/
def generate_monthly_date_range (start_date end_date : Date)
    (include_end_date : Bool) : Option (List Date) :=
  if dateLt end_date start_date then none
  else
    let r := monthlyLoop (monthIdx end_date + 1 - monthIdx (floorMonth start_date))
      (floorMonth start_date) (floorMonth end_date)
    let dates := r.1 ++ (if include_end_date then [r.2] else [])
    let _ := check_date_range dates .monthly
    some dates

/-- Embeds `bdms.utils.split_date_range` on parsed dates: generate the monthly dates
with `include_end_date=True`, restart the daily generation at
`monthly_dates[-1]`, pop the last monthly date, and generate the daily dates. -/
def split_date_range (start_date end_date : Date) :
    Option (List Date × List Date) :=
  match generate_monthly_date_range start_date end_date true with
  | none => none
  | some monthly_dates =>
    match monthly_dates.getLast? with
    | none => none
    | some newStart =>
      match generate_daily_date_range newStart end_date false with
      | none => none
      | some daily_dates => some (monthly_dates.dropLast, daily_dates)

/-- Embeds `split_date_range_legacy` from `test/migration_test.py`: same monthly
loop, but the daily cursor is reset to the original `start_date` when no
monthly date was emitted. -/
def split_date_range_legacy (start_date end_date : Date) :
    Option (List Date × List Date) :=
  if dateLt end_date start_date then none
  else
    let r := monthlyLoop (monthIdx end_date + 1 - monthIdx (floorMonth start_date))
      (floorMonth start_date) (floorMonth end_date)
    let monthly_dates := r.1
    let current := if monthly_dates.isEmpty then start_date else r.2
    let d := dailyLoop (toOrd end_date + 1 - toOrd current) current end_date
    some (monthly_dates, d.1)

/-- Embeds `bdms.utils.intersect_dates`.  The returned `Bool` records whether the
"Daily data before the first monthly date" warning fires (the source warns
exactly when the first filter dropped something). -/
def intersect_dates (monthly_dates daily_dates : List Date) :
    (List Date × List Date) × Bool :=
  let monthly_months := monthly_dates.map (fun d => (d.year, d.month))
  let daily2 :=
    match monthly_dates with
    | [] => daily_dates
    | m0 :: _ => daily_dates.filter (fun d => decide (dateLe m0 d))
  let warned := decide (daily2.length ≠ daily_dates.length)
  let filtered := daily2.filter (fun d => decide ((d.year, d.month) ∉ monthly_months))
  ((monthly_dates, filtered), warned)

/-! ## Closed forms for the generation loops -/

/-- The ascending enumeration `[s, s+1day, ..., s+(n-1)days]`. -/
def dateRangeList (s : Date) (n : Nat) : List Date :=
  (List.range n).map (fun k => addDays k s)

/-- Iterated month rollover. -/
def addMonths (n : Nat) (d : Date) : Date := nextMonthFirst^[n] d

/-- The ascending enumeration of `n` consecutive month-firsts from `s`. -/
def monthRangeList (s : Date) (n : Nat) : List Date :=
  (List.range n).map (fun k => addMonths k s)


/-! ## Embedding of `bdms/merge.py` -/

/-- Full calendar-month coverage of a monthly unit `u` (a month-first date):
the days of `u`'s month, as the spec's "each monthly unit covers its entire
calendar month". -/
def monthDays (u : Date) : List Date :=
  dateRangeList u (daysInMonth u.year u.month)

/-- The combined date coverage of a (monthly units, daily units) pair:
each monthly unit expanded to its whole month, followed by the daily units. -/
def coverage (monthly daily : List Date) : List Date :=
  monthly.flatMap monthDays ++ daily

/-- The helper predicate describing which daily dates `intersect_dates`
keeps: not before the first monthly date (when one exists) and not inside a
month already covered by a monthly date.  Used to state claims. -/
def keepsDaily (monthly_dates : List Date) (d : Date) : Prop :=
  (match monthly_dates with
   | [] => True
   | m0 :: _ => dateLe m0 d) ∧
    (d.year, d.month) ∉ monthly_dates.map (fun u => (u.year, u.month))

instance (monthly_dates : List Date) (d : Date) : Decidable (keepsDaily monthly_dates d) := by
  unfold keepsDaily
  cases monthly_dates <;> exact inferInstance

/-- The per-directory file selection of `merge_database` (lines 193-199 and
209-215): keep a discovered `(date, filename)` entry iff the filename ends
with `data_base_format` (abstracted as `fmtOk`) and
`start_date <= date <= end_date` (the code's inclusive bound check). -/
def selectFiles (start_date end_date : Date) (entries : List (Date × String))
    (fmtOk : String → Bool) : List (Date × String) :=
  entries.filter (fun p =>
    fmtOk p.2 && decide (dateLe start_date p.1) && decide (dateLe p.1 end_date))

/-- The warnings `merge_database` can emit while handling one key, in order
of emission; each carries the data interpolated into the message. -/
inductive MergeWarning
  | dailyBeforeMonthly
  | notContinuous (target : Date)
  | noFilesFound
  deriving DecidableEq, Repr

/-- Outcome of `merge_database`'s per-key loop body: either the key is
skipped (`continue`) or a concatenation job with the given source paths is
appended. -/
inductive KeyOutcome
  | skipped
  | job (paths : List String)
  deriving DecidableEq, Repr

/-- The expected first daily date computed by `merge_database` lines 240-243:
`last_month.replace(month=(m+1)%12 or 12, year=y+(m+1)//12)`. -/
def rolloverTarget (last_month : Date) : Date :=
  let m := (last_month.month + 1) % 12
  ⟨last_month.year + (last_month.month + 1) / 12, if m = 0 then 12 else m,
    last_month.day⟩

/-- The per-key body of `merge_database` (lines 184-279), abstracted over
the directory listings (`(date, filename)` pairs) and the storage-format
test.  Mirrors the source: file selection, the discarded `check_date_range`
calls, `intersect_dates`, the `np.isin` masks, the adjacency check with
`rolloverTarget`, and the empty-paths check.  Returns the outcome and the
warnings emitted.  Path-prefix joining is abstracted away (paths are the
filenames). -/
def mergeKey (check_continuous : Bool) (start_date end_date : Date)
    (monthly_entries daily_entries : List (Date × String))
    (fmtOk : String → Bool) : KeyOutcome × List MergeWarning :=
  let msel := selectFiles start_date end_date monthly_entries fmtOk
  let _ := if check_continuous then
    check_date_range (msel.map Prod.fst) .monthly else none
  let dsel := selectFiles start_date end_date daily_entries fmtOk
  let _ := if check_continuous then
    check_date_range (dsel.map Prod.fst) .daily else none
  let r := intersect_dates (msel.map Prod.fst) (dsel.map Prod.fst)
  let monthly_dates := r.1.1
  let daily_dates := r.1.2
  let monthly_pairs := msel.filter (fun p => decide (p.1 ∈ monthly_dates))
  let daily_pairs := dsel.filter (fun p => decide (p.1 ∈ daily_dates))
  let warns0 : List MergeWarning := if r.2 then [.dailyBeforeMonthly] else []
  let paths := monthly_pairs.map Prod.snd ++ daily_pairs.map Prod.snd
  let build : KeyOutcome × List MergeWarning :=
    if paths.isEmpty then (.skipped, warns0 ++ [.noFilesFound])
    else (.job paths, warns0)
  if !monthly_pairs.isEmpty && !daily_pairs.isEmpty && check_continuous then
    match monthly_dates.getLast?, daily_dates.head? with
    | some last_month, some d0 =>
      let target := rolloverTarget last_month
      if d0 ≠ target then (.skipped, warns0 ++ [.notContinuous target])
      else build
    | _, _ => build
  else build

/-- Output format of `concatenate_dfs_on_disk` (`csv` or `parquet`). -/
inductive OutFormat
  | csv
  | parquet
  deriving DecidableEq, Repr

/-- Failure during `concatenate_dfs_on_disk`, caught by its `except` block:
a read/parse/write exception raised while processing a source segment, or
`paths[0]` on an empty path list in the parquet branch. -/
inductive ConcatError
  | badSegment (path : String)
  | emptyInput
  deriving DecidableEq, Repr

/-- The sequential read-append loop of `concatenate_dfs_on_disk`: each
source segment is `(path, contents)`, where `none` means reading or writing
this segment raises.  Rows are modelled by their identifier column values.
Returns the accumulated destination rows, or the first failing segment. -/
def writeSegments : List (String × Option (List Int)) → List Int →
    Except ConcatError (List Int)
  | [], acc => .ok acc
  | (p, r) :: rest, acc =>
    match r with
    | some df => writeSegments rest (acc ++ df)
    | none => .error (.badSegment p)

/-- Embeds `bdms.merge.concatenate_dfs_on_disk` (lines 22-75): write segments
sequentially into the destination; on any exception the handler warns and
deletes the destination file.  Result: (destination contents left on disk if
any, reported error if any).  The csv and parquet branches write the same
row sequence; the parquet branch reads `paths[0]` first for the schema. -/
def concatenate_dfs_on_disk (fmt : OutFormat)
    (reads : List (String × Option (List Int))) :
    Option (List Int) × Option ConcatError :=
  match fmt with
  | .csv =>
    match writeSegments reads [] with
    | .ok rows => (some rows, none)
    | .error e => (none, some e)
  | .parquet =>
    match reads with
    | [] => (none, some .emptyInput)
    | first :: rest =>
      match writeSegments (first :: rest) [] with
      | .ok rows => (some rows, none)
      | .error e => (none, some e)

/-- The parallel execution of the job list (`pool.apply_async` per job):
each job owns a disjoint destination, so the outcome list is the per-job
map of `concatenate_dfs_on_disk`. -/
def runJobs (jobs : List (OutFormat × List (String × Option (List Int)))) :
    List (Option (List Int) × Option ConcatError) :=
  jobs.map (fun j => concatenate_dfs_on_disk j.1 j.2)


/-! ## Theorems -/
theorem not_dateLt_iff (a b : Date) : ¬ dateLt a b ↔ dateLe b a := by
  obtain ⟨ay, am, ad⟩ := a
  obtain ⟨by', bm, bd⟩ := b
  simp only [dateLt, dateLe, Date.mk.injEq]
  omega

/-- Days in the years strictly before year `y`, counting from year 1
(the proleptic Gregorian rata-die year prefix). -/
theorem daysInMonth_le_31 (y m : Nat) : daysInMonth y m ≤ 31 := by
  unfold daysInMonth; split_ifs <;> omega

theorem daysInMonth_ge_28 (y m : Nat) (h1 : 1 ≤ m) (h2 : m ≤ 12) :
    28 ≤ daysInMonth y m := by
  unfold daysInMonth; split_ifs <;> omega

set_option maxHeartbeats 2000000 in
theorem daysBeforeYear_succ (y : Nat) (hy : 1 ≤ y) :
    daysBeforeYear (y + 1) = daysBeforeYear y + 337 + daysInMonth y 2 := by
  by_cases h : isLeap y
  · have h2 : daysInMonth y 2 = 29 := by simp [daysInMonth, h]
    unfold isLeap at h
    unfold daysBeforeYear
    omega
  · have h2 : daysInMonth y 2 = 28 := by simp [daysInMonth, h]
    unfold isLeap at h
    unfold daysBeforeYear
    omega

theorem daysBeforeMonth_twelve (y : Nat) :
    daysBeforeMonth y 12 = 306 + daysInMonth y 2 := by
  simp only [daysBeforeMonth, daysInMonth]
  norm_num
  split_ifs <;> omega

theorem daysBeforeMonth_one (y : Nat) : daysBeforeMonth y 1 = 0 := by
  show daysBeforeMonth y 0 + daysInMonth y 0 = 0
  simp [daysBeforeMonth, daysInMonth]

theorem daysInMonth_january (y : Nat) : daysInMonth y 1 = 31 := by
  unfold daysInMonth; norm_num

theorem daysInMonth_december (y : Nat) : daysInMonth y 12 = 31 := by
  unfold daysInMonth; norm_num

theorem toOrd_succDay (d : Date) (h : ValidDate d) :
    toOrd (succDay d) = toOrd d + 1 := by
  obtain ⟨hy, hm1, hm2, hd1, hd2⟩ := h
  unfold succDay
  split_ifs with hlt hm
  · simp only [toOrd]
    omega
  · have hde : d.day = daysInMonth d.year d.month := by omega
    simp only [toOrd]
    have hstep : daysBeforeMonth d.year (d.month + 1) =
        daysBeforeMonth d.year d.month + daysInMonth d.year d.month := rfl
    omega
  · have hm12 : d.month = 12 := by omega
    rw [hm12] at hlt hd2
    have h31 : daysInMonth d.year 12 = 31 := daysInMonth_december d.year
    simp only [toOrd, hm12]
    have hy' := daysBeforeYear_succ d.year hy
    have h12 := daysBeforeMonth_twelve d.year
    have h1 : daysBeforeMonth (d.year + 1) 1 = 0 := daysBeforeMonth_one _
    omega

theorem validDate_succDay (d : Date) (h : ValidDate d) : ValidDate (succDay d) := by
  obtain ⟨hy, hm1, hm2, hd1, hd2⟩ := h
  unfold succDay
  split_ifs with hlt hm
  · simp only [ValidDate]
    exact ⟨hy, hm1, hm2, by omega, by omega⟩
  · simp only [ValidDate]
    have h28 := daysInMonth_ge_28 d.year (d.month + 1) (by omega) (by omega)
    exact ⟨hy, by omega, by omega, by omega, by omega⟩
  · simp only [ValidDate]
    have h31 := daysInMonth_january (d.year + 1)
    exact ⟨by omega, by omega, by omega, by omega, by omega⟩

theorem toOrd_addDays (n : Nat) (d : Date) (h : ValidDate d) :
    toOrd (addDays n d) = toOrd d + n ∧ ValidDate (addDays n d) := by
  induction n with
  | zero => exact ⟨rfl, h⟩
  | succ k ih =>
    have hs : addDays (k + 1) d = succDay (addDays k d) :=
      Function.iterate_succ_apply' succDay k d
    rw [hs]
    refine ⟨?_, validDate_succDay _ ih.2⟩
    rw [toOrd_succDay _ ih.2, ih.1]
    omega

theorem validDate_addDays (n : Nat) (d : Date) (h : ValidDate d) :
    ValidDate (addDays n d) := (toOrd_addDays n d h).2

theorem daysBeforeYear_mono_succ (y : Nat) (hy : 1 ≤ y) :
    daysBeforeYear y + 365 ≤ daysBeforeYear (y + 1) := by
  unfold daysBeforeYear; omega

theorem daysBeforeYear_add (a : Nat) (ha : 1 ≤ a) (n : Nat) :
    daysBeforeYear a ≤ daysBeforeYear (a + n) := by
  induction n with
  | zero => exact le_refl _
  | succ k ih =>
    have h1 := daysBeforeYear_mono_succ (a + k) (by omega)
    have h2 : a + (k + 1) = (a + k) + 1 := by omega
    rw [h2]
    omega

theorem daysBeforeYear_mono {a b : Nat} (ha : 1 ≤ a) (hab : a ≤ b) :
    daysBeforeYear a ≤ daysBeforeYear b := by
  have h := daysBeforeYear_add a ha (b - a)
  have heq : a + (b - a) = b := by omega
  rw [heq] at h
  exact h

theorem daysBeforeMonth_add (y a n : Nat) :
    daysBeforeMonth y a ≤ daysBeforeMonth y (a + n) := by
  induction n with
  | zero => exact le_refl _
  | succ k ih =>
    have h2 : daysBeforeMonth y (a + (k + 1)) =
        daysBeforeMonth y (a + k) + daysInMonth y (a + k) := rfl
    omega

theorem daysBeforeMonth_mono (y : Nat) {a b : Nat} (hab : a ≤ b) :
    daysBeforeMonth y a ≤ daysBeforeMonth y b := by
  have h := daysBeforeMonth_add y a (b - a)
  have heq : a + (b - a) = b := by omega
  rw [heq] at h
  exact h

theorem toOrd_le_year_bound (d : Date) (h : ValidDate d) :
    toOrd d ≤ daysBeforeYear (d.year + 1) := by
  obtain ⟨hy, hm1, hm2, hd1, hd2⟩ := h
  have hmono : daysBeforeMonth d.year d.month + daysInMonth d.year d.month ≤
      daysBeforeMonth d.year 12 + daysInMonth d.year 12 := by
    have h1 : daysBeforeMonth d.year d.month + daysInMonth d.year d.month =
        daysBeforeMonth d.year (d.month + 1) := rfl
    have h2 : daysBeforeMonth d.year 12 + daysInMonth d.year 12 =
        daysBeforeMonth d.year 13 := rfl
    rw [h1, h2]
    exact daysBeforeMonth_mono d.year (by omega)
  have h12 := daysBeforeMonth_twelve d.year
  have h31 : daysInMonth d.year 12 = 31 := daysInMonth_december d.year
  have hsucc := daysBeforeYear_succ d.year hy
  simp only [toOrd]
  omega

theorem toOrd_pos_in_year (d : Date) (h : ValidDate d) :
    daysBeforeYear d.year < toOrd d := by
  obtain ⟨hy, hm1, hm2, hd1, hd2⟩ := h
  simp only [toOrd]
  omega

theorem toOrd_lt_of_dateLt (a b : Date) (ha : ValidDate a) (hb : ValidDate b)
    (h : dateLt a b) : toOrd a < toOrd b := by
  rcases h with hy | ⟨hy, hrest⟩
  · have h1 := toOrd_le_year_bound a ha
    have h2 := toOrd_pos_in_year b hb
    have h3 : daysBeforeYear (a.year + 1) ≤ daysBeforeYear b.year :=
      daysBeforeYear_mono (by omega) (by omega)
    omega
  · rcases hrest with hm | ⟨hm, hd⟩
    · have hmono : daysBeforeMonth a.year a.month + daysInMonth a.year a.month ≤
          daysBeforeMonth a.year b.month := by
        have h1 : daysBeforeMonth a.year a.month + daysInMonth a.year a.month =
            daysBeforeMonth a.year (a.month + 1) := rfl
        rw [h1]; exact daysBeforeMonth_mono a.year (by omega)
      have hda := ha.2.2.2.2
      have hdb := hb.2.2.2.1
      simp only [toOrd]
      rw [← hy]
      omega
    · simp only [toOrd]
      rw [← hy, ← hm]
      omega

theorem dateLt_iff_toOrd (a b : Date) (ha : ValidDate a) (hb : ValidDate b) :
    dateLt a b ↔ toOrd a < toOrd b := by
  constructor
  · exact toOrd_lt_of_dateLt a b ha hb
  · intro h
    by_contra hn
    rw [not_dateLt_iff] at hn
    rcases hn with hlt | heq
    · have := toOrd_lt_of_dateLt b a hb ha hlt
      omega
    · rw [heq] at h; omega

theorem toOrd_inj (a b : Date) (ha : ValidDate a) (hb : ValidDate b)
    (h : toOrd a = toOrd b) : a = b := by
  by_contra hn
  have htot : dateLt a b ∨ dateLt b a := by
    obtain ⟨ay, am, ad⟩ := a
    obtain ⟨by', bm, bd⟩ := b
    simp only [Date.mk.injEq, not_and] at hn
    simp only [dateLt]
    by_cases h1 : ay = by'
    · by_cases h2 : am = bm
      · have : ¬ ad = bd := by tauto
        omega
      · omega
    · omega
  rcases htot with hl | hl
  · have := toOrd_lt_of_dateLt a b ha hb hl; omega
  · have := toOrd_lt_of_dateLt b a hb ha hl; omega

theorem dateLe_iff_toOrd (a b : Date) (ha : ValidDate a) (hb : ValidDate b) :
    dateLe a b ↔ toOrd a ≤ toOrd b := by
  unfold dateLe
  constructor
  · rintro (h | rfl)
    · exact le_of_lt ((dateLt_iff_toOrd a b ha hb).1 h)
    · exact le_refl _
  · intro h
    rcases Nat.lt_or_ge (toOrd a) (toOrd b) with hlt | hge
    · exact Or.inl ((dateLt_iff_toOrd a b ha hb).2 hlt)
    · exact Or.inr (toOrd_inj a b ha hb (by omega))

theorem addDays_zero (d : Date) : addDays 0 d = d := rfl

theorem addDays_succ_left (k : Nat) (d : Date) :
    addDays (k + 1) d = addDays k (succDay d) :=
  Function.iterate_succ_apply succDay k d

theorem addDays_add (a b : Nat) (d : Date) :
    addDays (a + b) d = addDays a (addDays b d) :=
  Function.iterate_add_apply succDay a b d

theorem dateRangeList_zero (s : Date) : dateRangeList s 0 = [] := rfl

theorem dateRangeList_succ (s : Date) (n : Nat) :
    dateRangeList s (n + 1) = s :: dateRangeList (succDay s) n := by
  unfold dateRangeList
  rw [List.range_succ_eq_map, List.map_cons, List.map_map]
  refine congrArg₂ _ rfl (List.map_congr_left ?_)
  intro k _
  exact addDays_succ_left k s

theorem dailyLoop_eq (fuel : Nat) (c stop : Date) (hc : ValidDate c)
    (hstop : ValidDate stop) (hf : toOrd stop - toOrd c ≤ fuel) :
    dailyLoop fuel c stop =
      (dateRangeList c (toOrd stop - toOrd c), addDays (toOrd stop - toOrd c) c) := by
  induction fuel generalizing c with
  | zero =>
    have h0 : toOrd stop - toOrd c = 0 := by omega
    simp [dailyLoop, h0, dateRangeList_zero, addDays_zero]
  | succ f ih =>
    by_cases h : dateLt c stop
    · have hlt : toOrd c < toOrd stop := (dateLt_iff_toOrd c stop hc hstop).1 h
      have hone := toOrd_succDay c hc
      have hvs := validDate_succDay c hc
      have ihs := ih (succDay c) hvs (by omega)
      have hn : toOrd stop - toOrd c = (toOrd stop - toOrd (succDay c)) + 1 := by omega
      simp only [dailyLoop, if_pos h, ihs]
      rw [hn, dateRangeList_succ, addDays_succ_left]
    · have hle : toOrd stop ≤ toOrd c := by
        by_contra hn
        push_neg at hn
        exact h ((dateLt_iff_toOrd c stop hc hstop).2 hn)
      have h0 : toOrd stop - toOrd c = 0 := by omega
      simp [dailyLoop, if_neg h, h0, dateRangeList_zero, addDays_zero]

theorem nextMonthFirst_day (d : Date) : (nextMonthFirst d).day = 1 := by
  unfold nextMonthFirst
  split_ifs <;> rfl

theorem validDate_nextMonthFirst (d : Date) (h : ValidDate d) :
    ValidDate (nextMonthFirst d) := by
  obtain ⟨hy, hm1, hm2, hd1, hd2⟩ := h
  unfold nextMonthFirst
  split_ifs with hm
  · simp only [ValidDate]
    have h28 := daysInMonth_ge_28 d.year (d.month + 1) (by omega) (by omega)
    exact ⟨hy, by omega, by omega, by omega, by omega⟩
  · simp only [ValidDate]
    have h31 := daysInMonth_january (d.year + 1)
    exact ⟨by omega, by omega, by omega, by omega, by omega⟩

theorem monthIdx_nextMonthFirst (d : Date) (hm1 : 1 ≤ d.month) (hm2 : d.month ≤ 12) :
    monthIdx (nextMonthFirst d) = monthIdx d + 1 := by
  unfold nextMonthFirst monthIdx
  split_ifs with hm
  · show 12 * d.year + (d.month + 1) = 12 * d.year + d.month + 1
    omega
  · show 12 * (d.year + 1) + 1 = 12 * d.year + d.month + 1
    have h12 : d.month = 12 := by omega
    omega

theorem addDays_succ_right (k : Nat) (d : Date) :
    addDays (k + 1) d = succDay (addDays k d) :=
  Function.iterate_succ_apply' succDay k d

theorem addDays_within_month (c : Date) (h : ValidDate c) (h1 : c.day = 1)
    (k : Nat) (hk : k < daysInMonth c.year c.month) :
    addDays k c = ⟨c.year, c.month, 1 + k⟩ := by
  induction k with
  | zero =>
    rw [addDays_zero]
    obtain ⟨cy, cm, cd⟩ := c
    have h1' : cd = 1 := h1
    simp only [Date.mk.injEq]
    exact ⟨trivial, trivial, by omega⟩
  | succ j ih =>
    have hj := ih (by omega)
    rw [addDays_succ_right, hj]
    unfold succDay
    have hcond : (1 + j : Nat) < daysInMonth c.year c.month := by omega
    rw [if_pos hcond]
    simp only [Date.mk.injEq]
    exact ⟨trivial, trivial, by omega⟩

theorem addDays_daysInMonth (c : Date) (h : ValidDate c) (h1 : c.day = 1) :
    addDays (daysInMonth c.year c.month) c = nextMonthFirst c := by
  have h28 := daysInMonth_ge_28 c.year c.month h.2.1 h.2.2.1
  obtain ⟨k, hk⟩ : ∃ k, daysInMonth c.year c.month = k + 1 :=
    ⟨daysInMonth c.year c.month - 1, by omega⟩
  rw [hk, addDays_succ_right, addDays_within_month c h h1 k (by omega)]
  unfold succDay nextMonthFirst
  rw [if_neg (show ¬ ((1 + k : Nat) < daysInMonth c.year c.month) by omega)]

theorem monthStep_eq_nextMonthFirst (c : Date) (h : ValidDate c) (h1 : c.day = 1) :
    monthStep c = nextMonthFirst c := by
  have hdim28 := daysInMonth_ge_28 c.year c.month h.2.1 h.2.2.1
  have hdim31 := daysInMonth_le_31 c.year c.month
  have hsplit : (32 : Nat) = (32 - daysInMonth c.year c.month) + daysInMonth c.year c.month := by
    omega
  unfold monthStep
  rw [hsplit, addDays_add, addDays_daysInMonth c h h1]
  have hv := validDate_nextMonthFirst c h
  have hd1 := nextMonthFirst_day c
  have hlt : 32 - daysInMonth c.year c.month <
      daysInMonth (nextMonthFirst c).year (nextMonthFirst c).month := by
    have := daysInMonth_ge_28 (nextMonthFirst c).year (nextMonthFirst c).month
      hv.2.1 hv.2.2.1
    omega
  rw [addDays_within_month (nextMonthFirst c) hv hd1 _ hlt]
  show (⟨(nextMonthFirst c).year, (nextMonthFirst c).month, 1⟩ : Date) = nextMonthFirst c
  rw [← hd1]

theorem addMonths_spec (n : Nat) (c : Date) (h : ValidDate c) (h1 : c.day = 1) :
    ValidDate (addMonths n c) ∧ (addMonths n c).day = 1 ∧
      monthIdx (addMonths n c) = monthIdx c + n := by
  induction n with
  | zero => exact ⟨h, h1, rfl⟩
  | succ k ih =>
    have hs : addMonths (k + 1) c = nextMonthFirst (addMonths k c) :=
      Function.iterate_succ_apply' nextMonthFirst k c
    obtain ⟨ihv, ihd, ihm⟩ := ih
    rw [hs]
    refine ⟨validDate_nextMonthFirst _ ihv, nextMonthFirst_day _, ?_⟩
    rw [monthIdx_nextMonthFirst _ ihv.2.1 ihv.2.2.1, ihm]
    omega

theorem dateLt_iff_monthIdx (a b : Date) (ha1 : 1 ≤ a.month) (ha2 : a.month ≤ 12)
    (hb1 : 1 ≤ b.month) (hb2 : b.month ≤ 12) (hd : a.day = b.day) :
    dateLt a b ↔ monthIdx a < monthIdx b := by
  obtain ⟨ay, am, ad⟩ := a
  obtain ⟨by', bm, bd⟩ := b
  simp only [dateLt, monthIdx] at *
  omega

theorem fom_eq_of_monthIdx (a b : Date) (ha1 : 1 ≤ a.month) (ha2 : a.month ≤ 12)
    (hb1 : 1 ≤ b.month) (hb2 : b.month ≤ 12) (hda : a.day = 1) (hdb : b.day = 1)
    (h : monthIdx a = monthIdx b) : a = b := by
  obtain ⟨ay, am, ad⟩ := a
  obtain ⟨by', bm, bd⟩ := b
  simp only [monthIdx] at *
  simp only [Date.mk.injEq]
  omega

theorem monthRangeList_zero (s : Date) : monthRangeList s 0 = [] := rfl

theorem monthRangeList_succ (s : Date) (n : Nat) :
    monthRangeList s (n + 1) = s :: monthRangeList (nextMonthFirst s) n := by
  unfold monthRangeList
  rw [List.range_succ_eq_map, List.map_cons, List.map_map]
  refine congrArg₂ _ rfl (List.map_congr_left ?_)
  intro k _
  exact Function.iterate_succ_apply nextMonthFirst k s

theorem addMonths_succ_left (k : Nat) (d : Date) :
    addMonths (k + 1) d = addMonths k (nextMonthFirst d) :=
  Function.iterate_succ_apply nextMonthFirst k d

theorem monthlyLoop_eq (fuel : Nat) (c stop : Date) (hc : ValidDate c)
    (hc1 : c.day = 1) (hstop : ValidDate stop) (hstop1 : stop.day = 1)
    (hf : monthIdx stop - monthIdx c ≤ fuel) :
    monthlyLoop fuel c stop =
      (monthRangeList c (monthIdx stop - monthIdx c),
        addMonths (monthIdx stop - monthIdx c) c) := by
  induction fuel generalizing c with
  | zero =>
    have h0 : monthIdx stop - monthIdx c = 0 := by omega
    simp [monthlyLoop, h0, monthRangeList_zero]
    rfl
  | succ f ih =>
    by_cases h : dateLt c stop
    · have hlt : monthIdx c < monthIdx stop :=
        (dateLt_iff_monthIdx c stop hc.2.1 hc.2.2.1 hstop.2.1 hstop.2.2.1
          (by rw [hc1, hstop1])).1 h
      have hvn := validDate_nextMonthFirst c hc
      have hdn := nextMonthFirst_day c
      have hmn := monthIdx_nextMonthFirst c hc.2.1 hc.2.2.1
      have ihs := ih (nextMonthFirst c) hvn hdn (by omega)
      have hn : monthIdx stop - monthIdx c =
          (monthIdx stop - monthIdx (nextMonthFirst c)) + 1 := by omega
      simp only [monthlyLoop, if_pos h, monthStep_eq_nextMonthFirst c hc hc1, ihs]
      rw [hn, monthRangeList_succ, addMonths_succ_left]
    · have hge : monthIdx stop ≤ monthIdx c := by
        by_contra hn
        push_neg at hn
        exact h ((dateLt_iff_monthIdx c stop hc.2.1 hc.2.2.1 hstop.2.1 hstop.2.2.1
          (by rw [hc1, hstop1])).2 hn)
      have h0 : monthIdx stop - monthIdx c = 0 := by omega
      simp [monthlyLoop, if_neg h, h0, monthRangeList_zero]
      rfl

/-! ## Wrapper-level closed forms -/

theorem validDate_floorMonth (d : Date) (h : ValidDate d) : ValidDate (floorMonth d) := by
  obtain ⟨hy, hm1, hm2, hd1, hd2⟩ := h
  have h28 := daysInMonth_ge_28 d.year d.month hm1 hm2
  exact ⟨hy, hm1, hm2, le_refl 1, show (1 : Nat) ≤ daysInMonth d.year d.month by omega⟩

theorem floorMonth_le (d : Date) (hd : 1 ≤ d.day) : dateLe (floorMonth d) d := by
  rcases Nat.lt_or_ge 1 d.day with hlt | hge
  · exact Or.inl (Or.inr ⟨rfl, Or.inr ⟨rfl, hlt⟩⟩)
  · have h1 : d.day = 1 := by omega
    right
    obtain ⟨dy, dm, dd⟩ := d
    have h1' : dd = 1 := h1
    simp only [floorMonth]
    rw [h1']

theorem monthIdx_le_of_dateLe (a b : Date) (ha2 : a.month ≤ 12) (hb1 : 1 ≤ b.month)
    (h : dateLe a b) : monthIdx a ≤ monthIdx b := by
  obtain ⟨ay, am, ad⟩ := a
  obtain ⟨by', bm, bd⟩ := b
  simp only [dateLe, dateLt, monthIdx, Date.mk.injEq] at *
  omega

theorem toOrd_nextMonthFirst (c : Date) (hc : ValidDate c) (h1 : c.day = 1) :
    toOrd (nextMonthFirst c) = toOrd c + daysInMonth c.year c.month := by
  rw [← addDays_daysInMonth c hc h1]
  exact (toOrd_addDays _ c hc).1

theorem toOrd_le_addMonths (n : Nat) (c : Date) (hc : ValidDate c) (h1 : c.day = 1) :
    toOrd c ≤ toOrd (addMonths n c) := by
  induction n generalizing c with
  | zero => exact le_refl _
  | succ k ih =>
    rw [addMonths_succ_left]
    have hv := validDate_nextMonthFirst c hc
    have hih := ih (nextMonthFirst c) hv (nextMonthFirst_day c)
    have hord := toOrd_nextMonthFirst c hc h1
    omega

theorem addMonths_reaches (s e : Date) (hs : ValidDate s) (he : ValidDate e)
    (hle : dateLe s e) :
    addMonths (monthIdx e - monthIdx s) (floorMonth s) = floorMonth e := by
  have hfs := validDate_floorMonth s hs
  have hfe := validDate_floorMonth e he
  have hspec := addMonths_spec (monthIdx e - monthIdx s) (floorMonth s) hfs rfl
  have hmle : monthIdx s ≤ monthIdx e := monthIdx_le_of_dateLe s e hs.2.2.1 he.2.1 hle
  refine fom_eq_of_monthIdx _ _ hspec.1.2.1 hspec.1.2.2.1 hfe.2.1 hfe.2.2.1
    hspec.2.1 rfl ?_
  rw [hspec.2.2]
  have h1 : monthIdx (floorMonth s) = monthIdx s := rfl
  have h2 : monthIdx (floorMonth e) = monthIdx e := rfl
  omega

theorem generate_daily_closed (s e : Date) (hs : ValidDate s) (he : ValidDate e)
    (hle : dateLe s e) :
    generate_daily_date_range s e false =
      some (dateRangeList s (toOrd e - toOrd s)) := by
  have hloop := dailyLoop_eq (toOrd e + 1 - toOrd s) s e hs he (by omega)
  unfold generate_daily_date_range
  rw [if_neg ((not_dateLt_iff e s).2 hle), hloop]
  simp

theorem generate_monthly_closed (s e : Date) (hs : ValidDate s) (he : ValidDate e)
    (hle : dateLe s e) :
    generate_monthly_date_range s e true =
      some (monthRangeList (floorMonth s) (monthIdx e - monthIdx s) ++ [floorMonth e]) := by
  have hfs := validDate_floorMonth s hs
  have hfe := validDate_floorMonth e he
  have hfuel : monthIdx (floorMonth e) - monthIdx (floorMonth s) ≤
      monthIdx e + 1 - monthIdx (floorMonth s) := by
    have h1 : monthIdx (floorMonth s) = monthIdx s := rfl
    have h2 : monthIdx (floorMonth e) = monthIdx e := rfl
    omega
  have hloop := monthlyLoop_eq (monthIdx e + 1 - monthIdx (floorMonth s))
    (floorMonth s) (floorMonth e) hfs rfl hfe rfl hfuel
  unfold generate_monthly_date_range
  rw [if_neg ((not_dateLt_iff e s).2 hle), hloop]
  have h1 : monthIdx (floorMonth s) = monthIdx s := rfl
  have h2 : monthIdx (floorMonth e) = monthIdx e := rfl
  rw [h1, h2, addMonths_reaches s e hs he hle]
  simp

theorem split_date_range_closed (s e : Date) (hs : ValidDate s) (he : ValidDate e)
    (hle : dateLe s e) :
    split_date_range s e =
      some (monthRangeList (floorMonth s) (monthIdx e - monthIdx s),
        dateRangeList (floorMonth e) (toOrd e - toOrd (floorMonth e))) := by
  unfold split_date_range
  rw [generate_monthly_closed s e hs he hle]
  simp only [List.getLast?_concat, List.dropLast_concat]
  rw [generate_daily_closed (floorMonth e) e (validDate_floorMonth e he) he
    (floorMonth_le e he.2.2.2.1)]

theorem split_legacy_closed_ne (s e : Date) (hs : ValidDate s) (he : ValidDate e)
    (hle : dateLe s e) (hne : monthIdx s < monthIdx e) :
    split_date_range_legacy s e =
      some (monthRangeList (floorMonth s) (monthIdx e - monthIdx s),
        dateRangeList (floorMonth e) (toOrd e - toOrd (floorMonth e))) := by
  have hfs := validDate_floorMonth s hs
  have hfe := validDate_floorMonth e he
  have h1 : monthIdx (floorMonth s) = monthIdx s := rfl
  have h2 : monthIdx (floorMonth e) = monthIdx e := rfl
  have hfuel : monthIdx (floorMonth e) - monthIdx (floorMonth s) ≤
      monthIdx e + 1 - monthIdx (floorMonth s) := by
    rw [h1, h2]; omega
  have hloop := monthlyLoop_eq (monthIdx e + 1 - monthIdx (floorMonth s))
    (floorMonth s) (floorMonth e) hfs rfl hfe rfl hfuel
  unfold split_date_range_legacy
  rw [if_neg ((not_dateLt_iff e s).2 hle), hloop, h1, h2,
    addMonths_reaches s e hs he hle]
  obtain ⟨k, hk⟩ : ∃ k, monthIdx e - monthIdx s = k + 1 :=
    ⟨monthIdx e - monthIdx s - 1, by omega⟩
  have hemp : (monthRangeList (floorMonth s) (monthIdx e - monthIdx s)).isEmpty = false := by
    rw [hk, monthRangeList_succ]
    rfl
  have hdl := dailyLoop_eq (toOrd e + 1 - toOrd (floorMonth e)) (floorMonth e) e
    hfe he (by omega)
  simp [hemp, hdl]

theorem split_legacy_closed_eq (s e : Date) (hs : ValidDate s) (he : ValidDate e)
    (hle : dateLe s e) (heq : monthIdx s = monthIdx e) :
    split_date_range_legacy s e = some ([], dateRangeList s (toOrd e - toOrd s)) := by
  have hfs := validDate_floorMonth s hs
  have hfe := validDate_floorMonth e he
  have h1 : monthIdx (floorMonth s) = monthIdx s := rfl
  have h2 : monthIdx (floorMonth e) = monthIdx e := rfl
  have hfuel : monthIdx (floorMonth e) - monthIdx (floorMonth s) ≤
      monthIdx e + 1 - monthIdx (floorMonth s) := by
    rw [h1, h2]; omega
  have hloop := monthlyLoop_eq (monthIdx e + 1 - monthIdx (floorMonth s))
    (floorMonth s) (floorMonth e) hfs rfl hfe rfl hfuel
  unfold split_date_range_legacy
  rw [if_neg ((not_dateLt_iff e s).2 hle), hloop, h1, h2]
  have hz : monthIdx e - monthIdx s = 0 := by omega
  rw [hz, monthRangeList_zero]
  have hdl := dailyLoop_eq (toOrd e + 1 - toOrd s) s e hs he (by omega)
  simp [hdl]

/-- C6 counterexample: with requested bounds 2024-01-01 .. 2024-01-05, a
discovered segment dated exactly 2024-01-05 (the end bound) is retained by
`merge_database`'s filter, contradicting the claim that the bounds are
half-open. -/
theorem C6_counterexample :
    (⟨2024, 1, 5⟩, "a") ∈ selectFiles ⟨2024, 1, 1⟩ ⟨2024, 1, 5⟩
      [(⟨2024, 1, 5⟩, "a")] (fun _ => true) := by decide

/-- C6 (amended): a discovered segment `(d, f)` is retained if and only if
its filename matches the storage format and `start <= d <= end` — the
bounds are closed at both ends, so a segment dated exactly `end` is
included. -/
theorem C6_selectFiles_closed_bounds (start_date end_date d : Date) (f : String)
    (entries : List (Date × String)) (fmtOk : String → Bool) :
    (d, f) ∈ selectFiles start_date end_date entries fmtOk ↔
      (d, f) ∈ entries ∧ fmtOk f = true ∧ dateLe start_date d ∧ dateLe d end_date := by
  unfold selectFiles
  rw [List.mem_filter]
  simp [Bool.and_eq_true, decide_eq_true_iff, and_assoc]

/-- C7: `split_date_range` does not reset the daily cursor to the original
start when no monthly unit is emitted: for start 2024-01-15, end 2024-01-20
(a sub-month range) the daily dates begin at 2024-01-01, the month floor,
not at the provided start — contradicting the claim and the function's own
docstring ("If the date range is less than a month, the start date is set
to the provided start date").  The claim's 2024-01-01 example does hold. -/
theorem C7_daily_starts_at_month_floor :
    split_date_range ⟨2024, 1, 15⟩ ⟨2024, 1, 20⟩ =
      some ([], dateRangeList ⟨2024, 1, 1⟩ 19) ∧
    (dateRangeList ⟨2024, 1, 1⟩ 19).head? = some ⟨2024, 1, 1⟩ ∧
    (⟨2024, 1, 1⟩ : Date) ≠ ⟨2024, 1, 15⟩ ∧
    split_date_range ⟨2024, 1, 1⟩ ⟨2024, 1, 2⟩ = some ([], [⟨2024, 1, 1⟩]) := by
  refine ⟨by decide, by decide, by decide, by decide⟩

/-- C10 counterexample: on a range inside a single partial month that does
not start on the first of the month, `split_date_range` and the legacy
variant disagree (the former emits daily dates from the month floor, the
latter from the original start). -/
theorem C10_counterexample :
    split_date_range ⟨2024, 1, 15⟩ ⟨2024, 1, 20⟩ ≠
      split_date_range_legacy ⟨2024, 1, 15⟩ ⟨2024, 1, 20⟩ := by decide

/-- C10 (amended): the two variants agree whenever the start date is the
first day of its month, or start and end fall in different calendar
months; they disagree exactly on sub-month ranges starting mid-month. -/
theorem C10_split_eq_legacy (s e : Date) (hs : ValidDate s) (he : ValidDate e)
    (hle : dateLe s e)
    (h : s.day = 1 ∨ ¬ (s.year = e.year ∧ s.month = e.month)) :
    split_date_range s e = split_date_range_legacy s e := by
  have hmle : monthIdx s ≤ monthIdx e :=
    monthIdx_le_of_dateLe s e hs.2.2.1 he.2.1 hle
  rcases Nat.lt_or_ge (monthIdx s) (monthIdx e) with hlt | hge
  · rw [split_date_range_closed s e hs he hle,
      split_legacy_closed_ne s e hs he hle hlt]
  · have heq : monthIdx s = monthIdx e := by omega
    have hsm1 : 1 ≤ s.month := hs.2.1
    have hsm2 : s.month ≤ 12 := hs.2.2.1
    have hem1 : 1 ≤ e.month := he.2.1
    have hem2 : e.month ≤ 12 := he.2.2.1
    have hym : s.year = e.year ∧ s.month = e.month := by
      unfold monthIdx at heq
      constructor <;> omega
    have hd1 : s.day = 1 := by
      rcases h with h1 | hne
      · exact h1
      · exact absurd hym hne
    rw [split_date_range_closed s e hs he hle,
      split_legacy_closed_eq s e hs he hle heq]
    have hz : monthIdx e - monthIdx s = 0 := by omega
    rw [hz, monthRangeList_zero]
    have hfme : floorMonth e = s := by
      obtain ⟨sy, sm, sd⟩ := s
      obtain ⟨ey, em, ed⟩ := e
      have hd1' : sd = 1 := hd1
      obtain ⟨hy', hm'⟩ := hym
      simp only at hy' hm'
      simp only [floorMonth, Date.mk.injEq]
      exact ⟨hy'.symm, hm'.symm, hd1'.symm⟩
    rw [hfme]

/-- C2: the month-rollover formula of `merge_database` is wrong for
November.  For last monthly date 2024-11-01 the code computes the expected
first daily date as 2025-12-01 (the `//12` carry fires a year early), while
the first day of the following calendar month is 2024-12-01; consequently a
key whose daily data correctly starts on 2024-12-01 is skipped with a
warning naming 2025-12-01 as the re-acquisition date. -/
theorem C2_november_rollover_bug :
    rolloverTarget ⟨2024, 11, 1⟩ = ⟨2025, 12, 1⟩ ∧
    nextMonthFirst ⟨2024, 11, 1⟩ = ⟨2024, 12, 1⟩ ∧
    (⟨2025, 12, 1⟩ : Date) ≠ ⟨2024, 12, 1⟩ ∧
    mergeKey true ⟨2024, 1, 1⟩ ⟨2024, 12, 31⟩ [(⟨2024, 11, 1⟩, "m.zip")]
        [(⟨2024, 12, 1⟩, "d.zip")] (fun _ => true) =
      (.skipped, [.notContinuous ⟨2025, 12, 1⟩]) := by
  refine ⟨by decide, by decide, by decide, by decide⟩

/-- C5: `merge_database` discards the result of `check_date_range`.  With
continuity checking enabled and a monthly list with a two-month gap
(2024-01-01 followed directly by 2024-03-01), `check_date_range` returns a
violation, yet the key is neither skipped nor warned about: a job with both
files is still built and the warning list is empty. -/
theorem C5_continuity_report_discarded :
    check_date_range [⟨2024, 1, 1⟩, ⟨2024, 3, 1⟩] .monthly =
      some (.gapTooLarge ⟨2024, 3, 1⟩ ⟨2024, 1, 1⟩) ∧
    mergeKey true ⟨2024, 1, 1⟩ ⟨2024, 12, 31⟩
        [(⟨2024, 1, 1⟩, "a.zip"), (⟨2024, 3, 1⟩, "b.zip")] [] (fun _ => true) =
      (.job ["a.zip", "b.zip"], []) := by
  refine ⟨by decide, by decide⟩

/-! ## Claim C8: `check_date_range` -/

theorem checkPair_monthly_none_iff (d1 d2 : Date) :
    checkPair .monthly d1 d2 = none ↔
      (d1.day = 1 ∧ d2.day = 1 ∧ 28 ≤ (toOrd d2 : Int) - toOrd d1 ∧
        (toOrd d2 : Int) - toOrd d1 ≤ 31) := by
  unfold checkPair
  split_ifs with h1 h2 h3 <;> simp <;> omega

theorem checkPair_daily_none_iff (d1 d2 : Date) :
    checkPair .daily d1 d2 = none ↔ (toOrd d2 : Int) - toOrd d1 = 1 := by
  unfold checkPair
  split_ifs with h1 <;> simp <;> omega

theorem check_monthly_none_iff (dates : List Date) :
    check_date_range dates .monthly = none ↔
      dates.Chain' (fun d1 d2 => d1.day = 1 ∧ d2.day = 1 ∧
        28 ≤ (toOrd d2 : Int) - toOrd d1 ∧ (toOrd d2 : Int) - toOrd d1 ≤ 31) := by
  induction dates with
  | nil => simp [check_date_range]
  | cons d1 rest ih =>
    cases rest with
    | nil => simp [check_date_range]
    | cons d2 rest2 =>
      rw [List.chain'_cons]
      unfold check_date_range
      cases hcp : checkPair .monthly d1 d2 with
      | some e =>
        simp only []
        constructor
        · intro hfalse
          exact absurd hfalse (by simp)
        · rintro ⟨hgood, -⟩
          have hnone := (checkPair_monthly_none_iff d1 d2).2 hgood
          rw [hnone] at hcp
          cases hcp
      | none =>
        simp only []
        rw [ih]
        have hgood := (checkPair_monthly_none_iff d1 d2).1 hcp
        simp [hgood]

theorem check_daily_none_iff (dates : List Date) :
    check_date_range dates .daily = none ↔
      dates.Chain' (fun d1 d2 => (toOrd d2 : Int) - toOrd d1 = 1) := by
  induction dates with
  | nil => simp [check_date_range]
  | cons d1 rest ih =>
    cases rest with
    | nil => simp [check_date_range]
    | cons d2 rest2 =>
      rw [List.chain'_cons]
      unfold check_date_range
      cases hcp : checkPair .daily d1 d2 with
      | some e =>
        simp only []
        constructor
        · intro hfalse
          exact absurd hfalse (by simp)
        · rintro ⟨hgood, -⟩
          have hnone := (checkPair_daily_none_iff d1 d2).2 hgood
          rw [hnone] at hcp
          cases hcp
      | none =>
        simp only []
        rw [ih]
        have hgood := (checkPair_daily_none_iff d1 d2).1 hcp
        simp [hgood]

theorem check_eq_findSome (dates : List Date) (mode : Granularity) :
    check_date_range dates mode =
      (dates.zip dates.tail).findSome? (fun p => checkPair mode p.1 p.2) := by
  induction dates with
  | nil => rfl
  | cons d1 rest ih =>
    cases rest with
    | nil => rfl
    | cons d2 rest2 =>
      unfold check_date_range
      rw [show (d1 :: d2 :: rest2).zip (d1 :: d2 :: rest2).tail =
        (d1, d2) :: (d2 :: rest2).zip (d2 :: rest2).tail from rfl]
      rw [List.findSome?_cons]
      cases hcp : checkPair mode d1 d2 with
      | some e => rfl
      | none => exact ih

/-- C8: for any ordered date sequence, `check_date_range` returns no
violation on sequences of length 0 or 1; for monthly mode it returns no
violation iff every adjacent pair has both days = 1 and a gap in [28, 31]
days (so it reports a violation iff some date in a pair has day ≠ 1 or some
gap lies outside [28, 31]); for daily mode iff every adjacent gap is
exactly 1 day; and the returned value is the first violating pair scanning
left to right (the `findSome?` over adjacent pairs).  The report is the
function's return value (`Option`), not a raised exception. -/
theorem C8_check_date_range_spec (dates : List Date) :
    (dates.length ≤ 1 → check_date_range dates .monthly = none ∧
      check_date_range dates .daily = none) ∧
    (check_date_range dates .monthly = none ↔
      dates.Chain' (fun d1 d2 => d1.day = 1 ∧ d2.day = 1 ∧
        28 ≤ (toOrd d2 : Int) - toOrd d1 ∧ (toOrd d2 : Int) - toOrd d1 ≤ 31)) ∧
    (check_date_range dates .daily = none ↔
      dates.Chain' (fun d1 d2 => (toOrd d2 : Int) - toOrd d1 = 1)) ∧
    (∀ mode, check_date_range dates mode =
      (dates.zip dates.tail).findSome? (fun p => checkPair mode p.1 p.2)) := by
  refine ⟨?_, check_monthly_none_iff dates, check_daily_none_iff dates,
    fun mode => check_eq_findSome dates mode⟩
  intro hlen
  cases dates with
  | nil => exact ⟨rfl, rfl⟩
  | cons d1 rest =>
    cases rest with
    | nil => exact ⟨rfl, rfl⟩
    | cons d2 rest2 => simp at hlen

/-- Witness for C8 at concrete inputs (a singleton list has length ≤ 1). -/
theorem C8_check_date_range_spec_witness :
    check_date_range [⟨2024, 5, 17⟩] .monthly = none ∧
    check_date_range [⟨2024, 5, 17⟩] .daily = none :=
  (C8_check_date_range_spec [⟨2024, 5, 17⟩]).1 (by decide)

/-! ## Claim C9: `intersect_dates` -/

theorem intersect_dates_daily_eq (m d : List Date) :
    (intersect_dates m d).1.2 = d.filter (fun x => decide (keepsDaily m x)) := by
  cases m with
  | nil =>
    simp only [intersect_dates]
    refine List.filter_congr ?_
    intro a _
    simp [keepsDaily]
  | cons m0 rest =>
    simp only [intersect_dates]
    rw [List.filter_filter]
    refine List.filter_congr ?_
    intro a _
    by_cases h1 : dateLe m0 a <;>
      by_cases h2 : (a.year, a.month) ∈
        (m0 :: rest).map (fun u => (u.year, u.month)) <;>
      simp [keepsDaily, h1, h2]

theorem intersect_dates_warn_iff (m d : List Date) :
    (intersect_dates m d).2 = true ↔
      ∃ m0 ∈ m.head?, ∃ x ∈ d, ¬ dateLe m0 x := by
  cases m with
  | nil => simp [intersect_dates]
  | cons m0 rest =>
    simp only [intersect_dates, List.head?_cons, Option.mem_def, Option.some.injEq]
    rw [decide_eq_true_iff]
    constructor
    · intro hne
      have hnall : ¬ ∀ a ∈ d, decide (dateLe m0 a) = true := by
        intro hall
        exact hne (List.filter_length_eq_length.2 hall)
      push_neg at hnall
      obtain ⟨a, ha, hna⟩ := hnall
      exact ⟨m0, rfl, a, ha, by simpa using hna⟩
    · rintro ⟨m0', heq, a, ha, hna⟩
      subst heq
      intro hlen
      have hall := List.filter_length_eq_length.1 hlen
      exact hna (by simpa using hall a ha)

/-- C9: `intersect_dates` leaves the monthly list unchanged and returns the
daily dates filtered in input order, dropping exactly (a) those strictly
earlier than the first monthly date when the monthly list is non-empty —
with the warning firing exactly when such a date is dropped — and (b) those
whose (year, month) appears among the monthly dates; in particular no
returned daily date shares a (year, month) with any monthly date. -/
theorem C9_intersect_dates_spec (monthly_dates daily_dates : List Date) :
    (intersect_dates monthly_dates daily_dates).1.1 = monthly_dates ∧
    (intersect_dates monthly_dates daily_dates).1.2 =
      daily_dates.filter (fun d => decide (keepsDaily monthly_dates d)) ∧
    ((intersect_dates monthly_dates daily_dates).2 = true ↔
      ∃ m0 ∈ monthly_dates.head?, ∃ d ∈ daily_dates, ¬ dateLe m0 d) ∧
    (∀ d ∈ (intersect_dates monthly_dates daily_dates).1.2,
      ∀ u ∈ monthly_dates, ¬ (d.year = u.year ∧ d.month = u.month)) ∧
    (intersect_dates monthly_dates daily_dates).1.2.Sublist daily_dates := by
  refine ⟨rfl, intersect_dates_daily_eq _ _, intersect_dates_warn_iff _ _, ?_, ?_⟩
  · intro d hd u hu hcontra
    rw [intersect_dates_daily_eq, List.mem_filter] at hd
    have hkeep : keepsDaily monthly_dates d := by simpa using hd.2
    apply hkeep.2
    rw [List.mem_map]
    exact ⟨u, hu, by rw [hcontra.1, hcontra.2]⟩
  · rw [intersect_dates_daily_eq]
    exact List.filter_sublist _

/-- Witness for C9 at the spec's own example: monthly 2024-01-01/02-01 with
daily 2024-02-15, 03-01, 03-02 drops 02-15 and keeps the March days. -/
theorem C9_intersect_dates_spec_witness :
    (intersect_dates [⟨2024, 1, 1⟩, ⟨2024, 2, 1⟩]
      [⟨2024, 2, 15⟩, ⟨2024, 3, 1⟩, ⟨2024, 3, 2⟩]).1.2 =
      [⟨2024, 3, 1⟩, ⟨2024, 3, 2⟩] := by
  have h := (C9_intersect_dates_spec [⟨2024, 1, 1⟩, ⟨2024, 2, 1⟩]
    [⟨2024, 2, 15⟩, ⟨2024, 3, 1⟩, ⟨2024, 3, 2⟩]).2.1
  rw [h]
  decide

/-! ## Claims C3 and C4: `concatenate_dfs_on_disk` -/

theorem writeSegments_ok (reads : List (String × Option (List Int)))
    (h : ∀ pr ∈ reads, pr.2 ≠ none) (acc : List Int) :
    writeSegments reads acc = .ok (acc ++ reads.flatMap (fun pr => pr.2.getD [])) := by
  induction reads generalizing acc with
  | nil => simp [writeSegments]
  | cons hd tl ih =>
    obtain ⟨p, r⟩ := hd
    cases r with
    | none => exact absurd rfl (h (p, none) (List.mem_cons_self _ _))
    | some df =>
      have h' : ∀ pr ∈ tl, pr.2 ≠ none := fun pr hm => h pr (List.mem_cons_of_mem _ hm)
      show writeSegments tl (acc ++ df) = _
      rw [ih h' (acc ++ df)]
      simp

theorem writeSegments_err (reads : List (String × Option (List Int))) :
    (∃ pr ∈ reads, pr.2 = none) → ∀ acc : List Int,
      ∃ q, writeSegments reads acc = .error (.badSegment q) ∧ (q, none) ∈ reads := by
  induction reads with
  | nil =>
    rintro ⟨pr, hmem, -⟩
    cases hmem
  | cons hd tl ih =>
    intro h acc
    obtain ⟨p, r⟩ := hd
    cases r with
    | none => exact ⟨p, rfl, List.mem_cons_self _ _⟩
    | some df =>
      have h' : ∃ pr ∈ tl, pr.2 = none := by
        obtain ⟨pr, hmem, hn⟩ := h
        rcases List.mem_cons.1 hmem with rfl | hm
        · exact absurd hn (by simp)
        · exact ⟨pr, hm, hn⟩
      obtain ⟨q, hq, hqm⟩ := ih h' (acc ++ df)
      exact ⟨q, hq, List.mem_cons_of_mem _ hqm⟩

/-- C3 counterexample: the concatenator has no identifier-continuity guard:
given segments with identifier ranges 1-10 and 12-20 (a gap), it succeeds,
writes all rows in source order, and leaves the destination on disk -
contradicting the claim that a gap aborts the merge and deletes the
destination. -/
theorem C3_counterexample :
    concatenate_dfs_on_disk .parquet
      [("a", some [1, 2, 3, 4, 5, 6, 7, 8, 9, 10]),
        ("b", some [12, 13, 14, 15, 16, 17, 18, 19, 20])] =
      (some [1, 2, 3, 4, 5, 6, 7, 8, 9, 10, 12, 13, 14, 15, 16, 17, 18, 19, 20],
        none) := by decide

/-- C3 (amended): `concatenate_dfs_on_disk` performs no identifier
continuity checking: for any non-empty list of readable segments -
regardless of whether their identifier ranges are consecutive or have gaps -
it succeeds and the destination holds all rows in source order. -/
theorem C3_no_continuity_guard (fmt : OutFormat)
    (reads : List (String × Option (List Int)))
    (hok : ∀ pr ∈ reads, pr.2 ≠ none) (hne : reads ≠ []) :
    concatenate_dfs_on_disk fmt reads =
      (some (reads.flatMap (fun pr => pr.2.getD [])), none) := by
  have hws := writeSegments_ok reads hok []
  cases fmt with
  | csv =>
    unfold concatenate_dfs_on_disk
    simp [hws]
  | parquet =>
    cases reads with
    | nil => exact absurd rfl hne
    | cons first rest =>
      unfold concatenate_dfs_on_disk
      simp [hws]

/-- Witness for C3 at the claim's consecutive scenario: segments 1-10,
11-20, 21-30 succeed and yield all 30 rows in order. -/
theorem C3_no_continuity_guard_witness :
    concatenate_dfs_on_disk .parquet
      [("a", some [1, 2, 3, 4, 5, 6, 7, 8, 9, 10]),
        ("b", some [11, 12, 13, 14, 15, 16, 17, 18, 19, 20]),
        ("c", some [21, 22, 23, 24, 25, 26, 27, 28, 29, 30])] =
      (some [1, 2, 3, 4, 5, 6, 7, 8, 9, 10, 11, 12, 13, 14, 15, 16, 17, 18, 19,
        20, 21, 22, 23, 24, 25, 26, 27, 28, 29, 30], none) := by
  rw [C3_no_continuity_guard .parquet _ (by decide) (by decide)]
  decide

/-- C4: whenever reading, parsing, or writing any source segment fails
during concatenation, the partially written destination is deleted (no
destination contents remain) and the reported error names a failing source
segment; and each job's outcome in the parallel run is the outcome of
running that job alone, so a failing job does not affect sibling jobs. -/
theorem C4_failure_cleanup (fmt : OutFormat)
    (reads : List (String × Option (List Int)))
    (h : ∃ pr ∈ reads, pr.2 = none) :
    (concatenate_dfs_on_disk fmt reads).1 = none ∧
    (∃ q, (concatenate_dfs_on_disk fmt reads).2 = some (.badSegment q) ∧
      (q, none) ∈ reads) ∧
    (∀ (jobs : List (OutFormat × List (String × Option (List Int)))) (i : Nat),
      (runJobs jobs)[i]? = (jobs[i]?).map (fun j => concatenate_dfs_on_disk j.1 j.2)) := by
  obtain ⟨q, hq, hqm⟩ := writeSegments_err reads h []
  have hmain : concatenate_dfs_on_disk fmt reads = (none, some (.badSegment q)) := by
    cases fmt with
    | csv =>
      unfold concatenate_dfs_on_disk
      simp [hq]
    | parquet =>
      cases reads with
      | nil => cases hqm
      | cons first rest =>
        unfold concatenate_dfs_on_disk
        simp [hq]
  rw [hmain]
  exact ⟨rfl, ⟨q, rfl, hqm⟩, fun jobs i => by simp [runJobs]⟩

/-- Witness for C4: a job whose second segment is unreadable leaves no
destination behind. -/
theorem C4_failure_cleanup_witness :
    (concatenate_dfs_on_disk .parquet [("a", some [1]), ("b", none)]).1 = none :=
  (C4_failure_cleanup .parquet [("a", some [1]), ("b", none)]
    ⟨("b", none), by decide, rfl⟩).1

/-- Witness for C10 at a concrete agreeing input (start is a month first). -/
theorem C10_split_eq_legacy_witness :
    split_date_range ⟨2024, 1, 1⟩ ⟨2024, 1, 2⟩ =
      split_date_range_legacy ⟨2024, 1, 1⟩ ⟨2024, 1, 2⟩ :=
  C10_split_eq_legacy ⟨2024, 1, 1⟩ ⟨2024, 1, 2⟩ (by decide) (by decide) (by decide)
    (Or.inl rfl)

/-! ## Claim C1: tiling of the half-open interval -/

theorem dateRangeList_append (c : Date) (a b : Nat) :
    dateRangeList c (a + b) = dateRangeList c a ++ dateRangeList (addDays a c) b := by
  unfold dateRangeList
  rw [List.range_add, List.map_append, List.map_map]
  congr 1
  refine List.map_congr_left ?_
  intro k _
  show addDays (a + k) c = addDays k (addDays a c)
  rw [Nat.add_comm a k]
  exact Function.iterate_add_apply succDay k a c

theorem flatMap_monthDays (n : Nat) (c : Date) (hc : ValidDate c) (h1 : c.day = 1) :
    (monthRangeList c n).flatMap monthDays =
      dateRangeList c (toOrd (addMonths n c) - toOrd c) := by
  induction n generalizing c with
  | zero => simp [monthRangeList_zero, addMonths, dateRangeList_zero]
  | succ k ih =>
    rw [monthRangeList_succ, List.flatMap_cons]
    have hv := validDate_nextMonthFirst c hc
    have hd := nextMonthFirst_day c
    rw [ih (nextMonthFirst c) hv hd]
    have hordn := toOrd_nextMonthFirst c hc h1
    have hmono := toOrd_le_addMonths k (nextMonthFirst c) hv hd
    rw [addMonths_succ_left]
    have harith : toOrd (addMonths k (nextMonthFirst c)) - toOrd c =
        daysInMonth c.year c.month +
          (toOrd (addMonths k (nextMonthFirst c)) - toOrd (nextMonthFirst c)) := by
      omega
    rw [harith, dateRangeList_append, addDays_daysInMonth c hc h1]
    rfl

theorem chain'_dateRangeList (n : Nat) (c : Date) (hc : ValidDate c) :
    (dateRangeList c n).Chain' dateLt := by
  induction n generalizing c with
  | zero => simp [dateRangeList_zero]
  | succ k ih =>
    rw [dateRangeList_succ]
    have hv := validDate_succDay c hc
    cases k with
    | zero => simp [dateRangeList_zero]
    | succ j =>
      rw [dateRangeList_succ, List.chain'_cons]
      constructor
      · rw [dateLt_iff_toOrd c (succDay c) hc hv, toOrd_succDay c hc]
        omega
      · rw [← dateRangeList_succ]
        exact ih (succDay c) hv

theorem chain'_monthRangeList (n : Nat) (c : Date) (hc : ValidDate c) (h1 : c.day = 1) :
    (monthRangeList c n).Chain' dateLt := by
  induction n generalizing c with
  | zero => simp [monthRangeList_zero]
  | succ k ih =>
    rw [monthRangeList_succ]
    have hv := validDate_nextMonthFirst c hc
    have hd := nextMonthFirst_day c
    cases k with
    | zero => simp [monthRangeList_zero]
    | succ j =>
      rw [monthRangeList_succ, List.chain'_cons]
      constructor
      · rw [dateLt_iff_toOrd c (nextMonthFirst c) hc hv, toOrd_nextMonthFirst c hc h1]
        have h28 := daysInMonth_ge_28 c.year c.month hc.2.1 hc.2.2.1
        omega
      · rw [← monthRangeList_succ]
        exact ih (nextMonthFirst c) hv hd

theorem mem_dateRangeList_iff (c : Date) (hc : ValidDate c) (n : Nat) (d : Date) :
    d ∈ dateRangeList c n ↔
      ValidDate d ∧ toOrd c ≤ toOrd d ∧ toOrd d < toOrd c + n := by
  unfold dateRangeList
  rw [List.mem_map]
  constructor
  · rintro ⟨k, hk, rfl⟩
    rw [List.mem_range] at hk
    have h := toOrd_addDays k c hc
    exact ⟨h.2, by omega, by omega⟩
  · rintro ⟨hd, hlo, hhi⟩
    refine ⟨toOrd d - toOrd c, ?_, ?_⟩
    · rw [List.mem_range]
      omega
    · have h := toOrd_addDays (toOrd d - toOrd c) c hc
      exact toOrd_inj _ _ h.2 hd (by omega)

theorem nodup_dateRangeList (c : Date) (hc : ValidDate c) (n : Nat) :
    (dateRangeList c n).Nodup := by
  unfold dateRangeList
  refine List.Nodup.map ?_ (List.nodup_range n)
  intro a b hab
  have hab' : addDays a c = addDays b c := hab
  have ha := toOrd_addDays a c hc
  have hb := toOrd_addDays b c hc
  have hord : toOrd (addDays a c) = toOrd (addDays b c) := by rw [hab']
  omega

/-- C1 counterexample: for start 2024-01-15 and end 2024-01-20 (start not
the first of its month), the coverage of the returned units contains
2024-01-01, a date strictly before start — so the split does not tile the
half-open interval `[start, end)` for every start <= end. -/
theorem C1_counterexample :
    ∃ monthly daily,
      split_date_range ⟨2024, 1, 15⟩ ⟨2024, 1, 20⟩ = some (monthly, daily) ∧
      ⟨2024, 1, 1⟩ ∈ coverage monthly daily ∧
      dateLt ⟨2024, 1, 1⟩ ⟨2024, 1, 15⟩ :=
  ⟨[], dateRangeList ⟨2024, 1, 1⟩ 19, by decide, by decide, by decide⟩

/-- C1 (amended): for every pair of valid dates start <= end where start is
the first day of its month, `split_date_range` succeeds and its combined
coverage — each monthly unit expanded over its entire calendar month,
followed by the daily units — is exactly the ascending enumeration of the
dates of `[start, end)`: a date is covered iff it lies in the half-open
interval, no date is covered twice, and both unit lists are strictly
ascending.  (Without the first-of-month restriction the coverage starts at
the month floor, before start: see the counterexample.) -/
theorem C1_split_tiles_range (s e : Date) (hs : ValidDate s) (he : ValidDate e)
    (h1 : s.day = 1) (hle : dateLe s e) :
    ∃ monthly daily, split_date_range s e = some (monthly, daily) ∧
      coverage monthly daily = dateRangeList s (toOrd e - toOrd s) ∧
      (∀ d, d ∈ coverage monthly daily ↔
        ValidDate d ∧ dateLe s d ∧ dateLt d e) ∧
      (coverage monthly daily).Nodup ∧
      monthly.Chain' dateLt ∧ daily.Chain' dateLt := by
  have hfs : floorMonth s = s := by
    obtain ⟨sy, sm, sd⟩ := s
    have hsd : sd = 1 := h1
    simp [floorMonth, hsd]
  have hfe := validDate_floorMonth e he
  have hsplit := split_date_range_closed s e hs he hle
  rw [hfs] at hsplit
  have hreach : addMonths (monthIdx e - monthIdx s) s = floorMonth e := by
    have h := addMonths_reaches s e hs he hle
    rw [hfs] at h
    exact h
  have hods : toOrd s ≤ toOrd (floorMonth e) := by
    have h := toOrd_le_addMonths (monthIdx e - monthIdx s) s hs h1
    rw [hreach] at h
    exact h
  have hode : toOrd (floorMonth e) ≤ toOrd e :=
    (dateLe_iff_toOrd _ _ hfe he).1 (floorMonth_le e he.2.2.2.1)
  have hcov : coverage (monthRangeList s (monthIdx e - monthIdx s))
      (dateRangeList (floorMonth e) (toOrd e - toOrd (floorMonth e))) =
      dateRangeList s (toOrd e - toOrd s) := by
    unfold coverage
    rw [flatMap_monthDays _ s hs h1, hreach]
    have hadd : addDays (toOrd (floorMonth e) - toOrd s) s = floorMonth e := by
      have h := toOrd_addDays (toOrd (floorMonth e) - toOrd s) s hs
      exact toOrd_inj _ _ h.2 hfe (by omega)
    have hsum : toOrd e - toOrd s =
        (toOrd (floorMonth e) - toOrd s) + (toOrd e - toOrd (floorMonth e)) := by
      omega
    rw [hsum, dateRangeList_append, hadd]
  refine ⟨_, _, hsplit, hcov, ?_, ?_, ?_, ?_⟩
  · intro d
    rw [hcov, mem_dateRangeList_iff s hs _ d]
    constructor
    · rintro ⟨hd, hlo, hhi⟩
      exact ⟨hd, (dateLe_iff_toOrd s d hs hd).2 hlo,
        (dateLt_iff_toOrd d e hd he).2 (by omega)⟩
    · rintro ⟨hd, hlo, hhi⟩
      have hlo' := (dateLe_iff_toOrd s d hs hd).1 hlo
      have hhi' := (dateLt_iff_toOrd d e hd he).1 hhi
      exact ⟨hd, by omega, by omega⟩
  · rw [hcov]
    exact nodup_dateRangeList s hs _
  · exact chain'_monthRangeList _ s hs h1
  · exact chain'_dateRangeList _ (floorMonth e) hfe

/-- Witness for C1 at start 2024-01-01, end 2024-02-01: the coverage is the
31 days of January 2024. -/
theorem C1_split_tiles_range_witness :
    ∃ monthly daily,
      split_date_range ⟨2024, 1, 1⟩ ⟨2024, 2, 1⟩ = some (monthly, daily) ∧
      coverage monthly daily = dateRangeList ⟨2024, 1, 1⟩ 31 := by
  obtain ⟨m, d, hsp, hcov, -, -, -, -⟩ :=
    C1_split_tiles_range ⟨2024, 1, 1⟩ ⟨2024, 2, 1⟩ (by decide) (by decide) rfl
      (by decide)
  refine ⟨m, d, hsp, ?_⟩
  rw [hcov]
  congr 1
